import Mathlib

/-!
Verification model of the `SuperMap` self-expiring, insertion-ordered map.

A JavaScript `Map` is embedded as an association list in insertion order:
`Map.prototype.set` replaces the value in place when the key exists and
appends otherwise, `Map.prototype.delete` removes the entry, and iteration
follows list order.  Two source variants are embedded:

* `SuperMap` models the `dateCache`/`itemsLimit` variant: `set` with the
  capacity branch (`itemsLimit > -1`, the `itemsLimit === 0` no-op, FIFO
  eviction of `first(true)`), `delete`, `sweep(sweeper)` (a `forEach` that
  deletes entries passing the sweeper, calling `onSweep` just before each
  deletion) and the private interval tick, which walks `entries()` and the
  `dateCache` entries in lockstep and expires entries older than
  `expireAfter`.  `sweepE` is the same sweep with the possibility that the
  `onSweep` callback throws (`cbThrows v k = true`): the exception
  propagates, so the fold stops and the pending deletion is not executed.

* `SuperMap0` models the per-entry-timer variant: `#timeouts` maps a key to
  the id of the timeout stored for it, `pending` holds the armed timers
  (id, fire time, key, value captured at schedule time), `set` arms a timer
  when `ttl > 0` (overwriting the `#timeouts` entry without clearing the
  old timeout), `delete` clears the stored timeout, and `fire` executes a
  pending timer's callback body (`#timeouts.delete(key)`, then
  `this.delete(key)`, then `onEntryExpiry(key, value)` when the deletion
  succeeded, recorded in `log`).  `concat`, `filter` and the fused
  `map`/`#mapGenerator` are folded over `entries()` exactly as the source
  loops do, building fresh maps through `set` with `ttl = 0`.
-/

section AssocList

variable {K A : Type} [DecidableEq K]

/-- `Map.prototype.get`: value of the first (only) entry with key `k`. -/
def lookupA : List (K × A) → K → Option A
  | [], _ => none
  | e :: t, k => if e.1 = k then some e.2 else lookupA t k

/-- `Map.prototype.has`. -/
def hasKeyA (l : List (K × A)) (k : K) : Bool :=
  (lookupA l k).isSome

/-- `Map.prototype.set`: replace in place when the key exists, append otherwise. -/
def mapSetA : List (K × A) → K → A → List (K × A)
  | [], k, v => [(k, v)]
  | e :: t, k, v => if e.1 = k then (e.1, v) :: t else e :: mapSetA t k v

/-- `Map.prototype.delete` (ignoring the returned boolean). -/
def mapDeleteA : List (K × A) → K → List (K × A)
  | [], _ => []
  | e :: t, k => if e.1 = k then t else e :: mapDeleteA t k

/-- Folding `Map.prototype.set` over a list of entries. -/
def plainFold (l0 l : List (K × A)) : List (K × A) :=
  l.foldl (fun acc e => mapSetA acc e.1 e.2) l0

end AssocList

/-- State of the `dateCache`/`itemsLimit` variant: the map entries, the
optional `dateCache` side table (`null` unless `intervalTime` was given),
and the two numeric options. -/
structure SuperMap (K V : Type) where
  entries : List (K × V)
  dateCache : Option (List (K × Int))
  itemsLimit : Int
  expireAfter : Int
  deriving DecidableEq

namespace SuperMap

variable {K V : Type} [DecidableEq K]

/-- The unconditional tail of `set`:
`this[kDateCache]?.set(key, Date.now() + ttl), super.set(key, value)`. -/
def insertRaw (m : SuperMap K V) (k : K) (v : V) (now ttl : Int) : SuperMap K V :=
  { m with
    dateCache := m.dateCache.map (fun dc => mapSetA dc k (now + ttl)),
    entries := mapSetA m.entries k v }

/-- `delete(key)`: `this[kDateCache]?.delete(key), super.delete(key)`. -/
def deleteKey (m : SuperMap K V) (k : K) : SuperMap K V :=
  { m with
    dateCache := m.dateCache.map (fun dc => mapDeleteA dc k),
    entries := mapDeleteA m.entries k }

/-- `this.delete(this.first(true)!)`: delete the first inserted key. -/
def evictFirst (m : SuperMap K V) : SuperMap K V :=
  match m.entries with
  | [] => m
  | e :: _ => m.deleteKey e.1

/-- `set(key, value, ttl)` at time `now`:
if `itemsLimit > -1` then (`itemsLimit === 0` returns `this` unchanged;
otherwise when `size >= itemsLimit && !has(key)` the first key is deleted),
then the date cache and the map are updated. -/
def set (m : SuperMap K V) (k : K) (v : V) (now ttl : Int) : SuperMap K V :=
  if -1 < m.itemsLimit then
    if m.itemsLimit = 0 then m
    else
      (if m.itemsLimit ≤ (m.entries.length : Int) ∧ hasKeyA m.entries k = false
       then m.evictFirst else m).insertRaw k v now ttl
  else m.insertRaw k v now ttl

end SuperMap

/-- A user-level operation on the map: an insert (with its call time and
ttl argument) or an explicit delete. -/
inductive Op (K V : Type) where
  | ins (k : K) (v : V) (now ttl : Int)
  | del (k : K)
  deriving DecidableEq

namespace SuperMap

variable {K V : Type} [DecidableEq K]

def applyOp (m : SuperMap K V) : Op K V → SuperMap K V
  | .ins k v now ttl => m.set k v now ttl
  | .del k => m.deleteKey k

/-- Run a sequence of operations left to right. -/
def runOps (m : SuperMap K V) (ops : List (Op K V)) : SuperMap K V :=
  ops.foldl applyOp m

/-- A sequence of plain inserts (ttl 0, at time 0). -/
def insertsOf (ps : List (K × V)) : List (Op K V) :=
  ps.map (fun p => Op.ins p.1 p.2 0 0)

/-- A freshly constructed map with the given `itemsLimit` and no interval. -/
def init (K V : Type) (limit : Int) : SuperMap K V :=
  ⟨[], none, limit, 0⟩

/-- One `forEach` step of `sweep(sweeper)`: when the sweeper passes,
`onSweep?.(v, k)` is recorded, then the entry is deleted.  The accumulator
carries (map so far, sweeper invocations, onSweep invocations). -/
def sweepStep (s : V → K → Bool) (acc : SuperMap K V × List (K × V) × List (K × V))
    (e : K × V) : SuperMap K V × List (K × V) × List (K × V) :=
  if s e.2 e.1 then (acc.1.deleteKey e.1, acc.2.1 ++ [e], acc.2.2 ++ [e])
  else (acc.1, acc.2.1 ++ [e], acc.2.2)

/-- `sweep(sweeper)`: `-1` on an empty map with no callback invoked;
otherwise it walks the entries, deleting those passing the sweeper, and
returns `prev - this.size` together with the final map and both call logs. -/
def sweepRun (m : SuperMap K V) (s : V → K → Bool) :
    Int × SuperMap K V × List (K × V) × List (K × V) :=
  if m.entries.length = 0 then (-1, m, [], [])
  else
    let r := m.entries.foldl (sweepStep s) (m, [], [])
    ((m.entries.length : Int) - (r.1.entries.length : Int), r.1, r.2.1, r.2.2)

/-- The `forEach` body of `sweep` when the `onSweep` callback may throw
(`cbThrows v k = true`): the exception propagates out of the loop, so the
walk stops with the deletion of the current entry not executed.  Returns
the map as mutated so far and whether an exception escaped. -/
def sweepGo (s : V → K → Bool) (cbThrows : V → K → Bool) :
    List (K × V) → SuperMap K V → SuperMap K V × Bool
  | [], mm => (mm, false)
  | e :: rest, mm =>
    if s e.2 e.1 then
      if cbThrows e.2 e.1 then (mm, true)
      else sweepGo s cbThrows rest (mm.deleteKey e.1)
    else sweepGo s cbThrows rest mm

/-- `sweep(sweeper)` with a possibly-throwing `onSweep` callback: the
second component is `none` when the exception propagated to the caller,
`some n` when the sweep returned `n`. -/
def sweepE (m : SuperMap K V) (s : V → K → Bool) (cbThrows : V → K → Bool) :
    SuperMap K V × Option Int :=
  if m.entries.length = 0 then (m, some (-1))
  else
    let r := sweepGo s cbThrows m.entries m
    (r.1, if r.2 then none else some ((m.entries.length : Int) - (r.1.entries.length : Int)))

/-- The lockstep pairing of `this.entries()` with
`dEntries.next().value?.[1] || 0` inside `#onSweep`. -/
def zipDates : List (K × V) → List Int → List ((K × V) × Int)
  | [], _ => []
  | e :: t, [] => (e, 0) :: zipDates t []
  | e :: t, d :: ds => (e, d) :: zipDates t ds

/-- One `#onSweep` iteration: when `expireAfter < now - date` the callback
`onSweep?.(v, k)` runs (logged together with the entries the container
holds at that moment) and then `this.delete(k)` runs. -/
def tickStep (ea now : Int) (acc : SuperMap K V × List (K × V × List (K × V)))
    (p : (K × V) × Int) : SuperMap K V × List (K × V × List (K × V)) :=
  if ea < now - p.2 then
    (acc.1.deleteKey p.1.1, acc.2 ++ [(p.1.1, p.1.2, acc.1.entries)])
  else acc

/-- The `#onSweep` interval tick at time `now`: walk the entries and the
date cache in lockstep, expiring entries older than `expireAfter`.  The
log records, for each expiry, the key, the value handed to `onSweep`, and
the entry list of the container at the moment the callback is invoked. -/
def onSweepTick (m : SuperMap K V) (now : Int) :
    SuperMap K V × List (K × V × List (K × V)) :=
  (zipDates m.entries ((m.dateCache.getD []).map Prod.snd)).foldl
    (tickStep m.expireAfter now) (m, [])

end SuperMap

/-- The dynamic value returned by an insert: either the container object
itself or an option holding a previous value. -/
inductive SetResult (K V : Type) where
  | container (m : SuperMap K V)
  | prevOption (o : Option V)
  deriving DecidableEq

namespace SuperMap

variable {K V : Type} [DecidableEq K]

/-- What `set` actually returns: `return super.set(key, value)` (and
`return this` on the `itemsLimit === 0` path), i.e. the container itself. -/
def setResult (m : SuperMap K V) (k : K) (v : V) (now ttl : Int) : SetResult K V :=
  .container (m.set k v now ttl)

/-- Modelled from the spec: "insert(key, value) -> previous value option"
— the value associated with the key before the insert, absent when the key
was not present.  (No code under src/ returns this; every variant returns
the container.) -/
def insertSpecReturn (m : SuperMap K V) (k : K) : Option V :=
  lookupA m.entries k

end SuperMap

/-- State of the per-entry-timer variant: entries, the `#timeouts` handle
table (key to timeout id), the capacity, the armed timers
`(id, fire time, key, value captured at schedule time)`, the next fresh
timeout id, and the log of `onEntryExpiry` invocations. -/
structure SuperMap0 (K V : Type) where
  entries : List (K × V)
  timeouts : List (K × Nat)
  capacity : Nat
  pending : List (Nat × Int × K × V)
  nextId : Nat
  log : List (K × V)
  deriving DecidableEq

namespace SuperMap0

variable {K V T : Type} [DecidableEq K]

/-- `delete(key)`: look up the stored timeout id; if the handle table had
the key, remove it and `clearTimeout` (drop the armed timer with that id);
then `super.delete(key)`. -/
def del (m : SuperMap0 K V) (k : K) : SuperMap0 K V :=
  let m1 := match lookupA m.timeouts k with
    | some tid =>
      { m with timeouts := mapDeleteA m.timeouts k,
               pending := m.pending.filter (fun p => p.1 != tid) }
    | none => m
  { m1 with entries := mapDeleteA m1.entries k }

/-- `this.delete(this.firstKey()!)`. -/
def evictFirst (m : SuperMap0 K V) : SuperMap0 K V :=
  match m.entries with
  | [] => m
  | e :: _ => m.del e.1

/-- `set(key, value, ttl)` at time `now`: evict the first entry when the
map would overflow with a new key, `super.set(key, value)`, and when
`ttl > 0` store a fresh timeout id in `#timeouts` (overwriting any id
already stored for the key, without clearing that older timeout) and arm
the timer for `now + ttl`, capturing the value. -/
def set (m : SuperMap0 K V) (k : K) (v : V) (now ttl : Int) : SuperMap0 K V :=
  let m1 := if m.capacity ≤ m.entries.length ∧ hasKeyA m.entries k = false
            then m.evictFirst else m
  let m2 := { m1 with entries := mapSetA m1.entries k v }
  if 0 < ttl then
    { m2 with timeouts := mapSetA m2.timeouts k m2.nextId,
              pending := m2.pending ++ [(m2.nextId, now + ttl, k, v)],
              nextId := m2.nextId + 1 }
  else m2

/-- The runtime fires the armed timer `tid` (a no-op if it was cleared):
the timer callback runs `this.#timeouts.delete(key)` (a plain map delete,
clearing nothing), then `this.delete(key)`, and when that deletion
returned `true` it invokes `onEntryExpiry(key, value)` with the value
captured at schedule time (appended to `log`). -/
def fire (m : SuperMap0 K V) (tid : Nat) : SuperMap0 K V :=
  match m.pending.find? (fun p => p.1 == tid) with
  | none => m
  | some pe =>
    let k := pe.2.2.1
    let v := pe.2.2.2
    let m1 := { m with pending := m.pending.filter ((· != tid) ∘ Prod.fst) }
    let m2 := { m1 with timeouts := mapDeleteA m1.timeouts k }
    let deleted := hasKeyA m2.entries k
    let m3 := m2.del k
    if deleted then { m3 with log := m3.log ++ [(k, v)] } else m3

/-- A freshly constructed map with the given capacity. -/
def empty0 (K V : Type) (cap : Nat) : SuperMap0 K V :=
  ⟨[], [], cap, [], 0, []⟩

/-- `new SuperMap({ onEntryExpiry: this.#onEntryExpiry, capacity: this.#capacity })`. -/
def emptyLike (m : SuperMap0 K V) : SuperMap0 K V :=
  ⟨[], [], m.capacity, [], 0, []⟩

/-- Inserting a list of entries through `set` with no ttl, as the
`concat` loops do (`map.set.apply(map, iter.value)`). -/
def foldSet0 (m : SuperMap0 K V) (l : List (K × V)) : SuperMap0 K V :=
  l.foldl (fun mm e => mm.set e.1 e.2 0 0) m

/-- `concat(...children)`: a fresh map with this map's configuration,
filled from each of `children.concat(this)` in order. -/
def concat (m : SuperMap0 K V) (children : List (SuperMap0 K V)) : SuperMap0 K V :=
  (children ++ [m]).foldl (fun acc child => foldSet0 acc child.entries) m.emptyLike

/-- `filter(func)`: a fresh map with this map's configuration, receiving
the entries passing the predicate, in order. -/
def filter (m : SuperMap0 K V) (p : V → K → Bool) : SuperMap0 K V :=
  m.entries.foldl (fun mm e => if p e.2 e.1 then mm.set e.1 e.2 0 0 else mm) m.emptyLike

/-- `map(mapCb)` with no filter callback: the second `#mapGenerator` loop,
materialized by `Array.from`. -/
def mapNF (m : SuperMap0 K V) (f : V → K → T) : List T :=
  m.entries.foldl (fun acc e => acc ++ [f e.2 e.1]) []

/-- `map(mapCb, filterCb)`: the fused `#mapGenerator` loop — for each
entry, apply the filter and, when it passes, yield the mapped value. -/
def mapF (m : SuperMap0 K V) (f : V → K → T) (p : V → K → Bool) : List T :=
  m.entries.foldl (fun acc e => if p e.2 e.1 then acc ++ [f e.2 e.1] else acc) []

/-- One fused-generator step, instrumented: records every entry on which
the filter callback is applied, every entry on which the map callback is
applied, and the yielded results. -/
def traceStep (f : V → K → T) (p : V → K → Bool)
    (acc : List (K × V) × List (K × V) × List T) (e : K × V) :
    List (K × V) × List (K × V) × List T :=
  if p e.2 e.1 then (acc.1 ++ [e], acc.2.1 ++ [e], acc.2.2 ++ [f e.2 e.1])
  else (acc.1 ++ [e], acc.2.1, acc.2.2)

/-- The fused `map(mapCb, filterCb)` call, instrumented with its
callback-invocation trace. -/
def mapFusedTrace (m : SuperMap0 K V) (f : V → K → T) (p : V → K → Bool) :
    List (K × V) × List (K × V) × List T :=
  m.entries.foldl (traceStep f p) ([], [], [])

end SuperMap0

/-! Concrete states used by the closed theorems below. -/

/-- Per-entry-timer map after `set(0, 1, ttl=100)` at t=0 and the
superseding `set(0, 2, ttl=200)` at t=1 (capacity is the default
`Number.MAX_SAFE_INTEGER`). -/
def exC2 : SuperMap0 Nat Nat :=
  ((SuperMap0.empty0 Nat Nat 9007199254740991).set 0 1 0 100).set 0 2 1 200

/-- A three-entry map for the sweep-with-throwing-callback theorem. -/
def exC3 : SuperMap Nat Nat := ⟨[(1, 10), (2, 20), (3, 30)], none, -1, 0⟩

/-- Sweeper passing every entry. -/
def exS3 : Nat → Nat → Bool := fun _ _ => true

/-- An `onSweep` callback that throws exactly on the value 20. -/
def exCb3 : Nat → Nat → Bool := fun v _ => v == 20

/-- A two-entry map with a date cache; only key 1 is older than
`expireAfter` at t=50. -/
def exC4w : SuperMap Nat Nat := ⟨[(1, 10), (2, 20)], some [(1, 0), (2, 100)], -1, 0⟩

/-- A one-entry map with a date cache, expired at t=5. -/
def exC4 : SuperMap Nat Nat := ⟨[(1, 10)], some [(1, 0)], -1, 0⟩

/-- A map with a date cache and capacity 2 holding keys 1 and 2. -/
def exC6 : SuperMap Nat Nat := ⟨[(1, 10), (2, 20)], some [(1, 0), (2, 0)], 2, 0⟩

def exC7a : SuperMap0 Nat Nat := SuperMap0.empty0 Nat Nat 10

def exC7a2 : SuperMap0 Nat Nat := ⟨[(5, 50)], [], 10, [], 0, []⟩

def exC7b : SuperMap0 Nat Nat := ⟨[(1, 10)], [], 10, [], 0, []⟩

def exC7c : SuperMap0 Nat Nat := ⟨[(1, 20)], [], 10, [], 0, []⟩

/-- A three-entry per-entry-timer map with capacity 5. -/
def exC8 : SuperMap0 Nat Nat := ⟨[(1, 10), (2, 20), (3, 30)], [], 5, [], 0, []⟩

def exF8 : Nat → Nat → Nat := fun v k => v + k

def exP8 : Nat → Nat → Bool := fun v _ => v != 20

/-- A two-entry map for the sweep return-value theorem. -/
def exC10 : SuperMap Nat Nat := ⟨[(1, 10), (2, 20)], none, -1, 0⟩

/-- Sweeper passing exactly the value 10. -/
def exS10 : Nat → Nat → Bool := fun v _ => v == 10

section AssocListLemmas

variable {K A : Type} [DecidableEq K]

theorem lookupA_eq_none_iff (l : List (K × A)) (k : K) :
    lookupA l k = none ↔ k ∉ l.map Prod.fst := by
  induction l with
  | nil => simp [lookupA]
  | cons e t ih =>
    rw [lookupA]
    by_cases h : e.1 = k
    · subst h; simp
    · rw [if_neg h, ih]
      simp only [List.map_cons, List.mem_cons]
      constructor
      · intro hnk hh
        rcases hh with hh | hh
        · exact h hh.symm
        · exact hnk hh
      · intro hh hm
        exact hh (Or.inr hm)

theorem hasKeyA_false_iff (l : List (K × A)) (k : K) :
    hasKeyA l k = false ↔ k ∉ l.map Prod.fst := by
  rw [← lookupA_eq_none_iff]
  unfold hasKeyA
  cases lookupA l k <;> simp

theorem lookupA_mapSetA_self (l : List (K × A)) (k : K) (v : A) :
    lookupA (mapSetA l k v) k = some v := by
  induction l with
  | nil => simp [mapSetA, lookupA]
  | cons e t ih =>
    by_cases h : e.1 = k
    · simp [mapSetA, h, lookupA]
    · simp [mapSetA, h, lookupA, ih]

theorem lookupA_mapSetA_ne (l : List (K × A)) {k k' : K} (v : A) (h : k' ≠ k) :
    lookupA (mapSetA l k v) k' = lookupA l k' := by
  have hkk : ¬ k = k' := fun hh => h hh.symm
  induction l with
  | nil => simp [mapSetA, lookupA, hkk]
  | cons e t ih =>
    by_cases he : e.1 = k
    · rw [mapSetA, if_pos he, lookupA, lookupA, he, if_neg hkk, if_neg hkk]
    · rw [mapSetA, if_neg he, lookupA, lookupA]
      by_cases he2 : e.1 = k'
      · rw [if_pos he2, if_pos he2]
      · rw [if_neg he2, if_neg he2, ih]

theorem mapSetA_of_fresh (l : List (K × A)) {k : K} (v : A)
    (h : hasKeyA l k = false) : mapSetA l k v = l ++ [(k, v)] := by
  induction l with
  | nil => simp [mapSetA]
  | cons e t ih =>
    rw [hasKeyA_false_iff] at h
    simp only [List.map_cons, List.mem_cons] at h
    push_neg at h
    have h1 : e.1 ≠ k := fun hh => h.1 hh.symm
    have h2 : hasKeyA t k = false := by rw [hasKeyA_false_iff]; exact h.2
    simp [mapSetA, h1, ih h2]

theorem keys_mapSetA_of_has (l : List (K × A)) {k : K} (v : A)
    (h : hasKeyA l k = true) : (mapSetA l k v).map Prod.fst = l.map Prod.fst := by
  induction l with
  | nil => simp [hasKeyA, lookupA] at h
  | cons e t ih =>
    by_cases he : e.1 = k
    · simp [mapSetA, he]
    · have h2 : hasKeyA t k = true := by
        simpa [hasKeyA, lookupA, he] using h
      simp [mapSetA, he, ih h2]

theorem length_mapSetA_le (l : List (K × A)) (k : K) (v : A) :
    (mapSetA l k v).length ≤ l.length + 1 := by
  induction l with
  | nil => simp [mapSetA]
  | cons e t ih =>
    by_cases he : e.1 = k
    · simp only [mapSetA, if_pos he, List.length_cons]
      omega
    · simp only [mapSetA, if_neg he, List.length_cons]
      omega

theorem length_mapSetA_of_has (l : List (K × A)) {k : K} (v : A)
    (h : hasKeyA l k = true) : (mapSetA l k v).length = l.length := by
  have := keys_mapSetA_of_has l v h
  have h1 : ((mapSetA l k v).map Prod.fst).length = (l.map Prod.fst).length := by rw [this]
  simpa using h1

theorem length_mapDeleteA_le (l : List (K × A)) (k : K) :
    (mapDeleteA l k).length ≤ l.length := by
  induction l with
  | nil => simp [mapDeleteA]
  | cons e t ih =>
    by_cases he : e.1 = k
    · simp only [mapDeleteA, if_pos he, List.length_cons]
      omega
    · simp only [mapDeleteA, if_neg he, List.length_cons]
      omega

theorem lookupA_mapDeleteA_ne (l : List (K × A)) {k k' : K} (h : k' ≠ k) :
    lookupA (mapDeleteA l k) k' = lookupA l k' := by
  induction l with
  | nil => simp [mapDeleteA]
  | cons e t ih =>
    by_cases he : e.1 = k
    · rw [mapDeleteA, if_pos he, lookupA, if_neg (by rw [he]; exact fun hh => h hh.symm)]
    · rw [mapDeleteA, if_neg he]
      by_cases he' : e.1 = k'
      · rw [lookupA, if_pos he', lookupA, if_pos he']
      · rw [lookupA, if_neg he', lookupA, if_neg he', ih]

theorem hasKeyA_mapDeleteA_false (l : List (K × A)) {k : K} (k0 : K)
    (h : hasKeyA l k = false) : hasKeyA (mapDeleteA l k0) k = false := by
  induction l with
  | nil => simpa [mapDeleteA] using h
  | cons e t ih =>
    rw [hasKeyA_false_iff] at h
    simp only [List.map_cons, List.mem_cons] at h
    push_neg at h
    have ht : hasKeyA t k = false := (hasKeyA_false_iff t k).mpr h.2
    by_cases he : e.1 = k0
    · rw [mapDeleteA, if_pos he]; exact ht
    · rw [mapDeleteA, if_neg he, hasKeyA_false_iff]
      simp only [List.map_cons, List.mem_cons]
      push_neg
      exact ⟨h.1, (hasKeyA_false_iff _ k).mp (ih ht)⟩

theorem mapDeleteA_cons_self (e : K × A) (t : List (K × A)) :
    mapDeleteA (e :: t) e.1 = t := by
  simp [mapDeleteA]

theorem lookupA_of_mem_nodup {l : List (K × A)} (hnd : (l.map Prod.fst).Nodup)
    {e : K × A} (he : e ∈ l) : lookupA l e.1 = some e.2 := by
  induction l with
  | nil => simp at he
  | cons e0 t ih =>
    simp only [List.map_cons, List.nodup_cons] at hnd
    rcases List.mem_cons.mp he with h | h
    · subst h; simp [lookupA]
    · have hne : e0.1 ≠ e.1 := by
        intro hh
        exact hnd.1 (hh ▸ List.mem_map_of_mem Prod.fst h)
      rw [lookupA, if_neg hne]
      exact ih hnd.2 h

end AssocListLemmas

section PlainFoldLemmas

variable {K A : Type} [DecidableEq K]

theorem plainFold_cons (l0 : List (K × A)) (e : K × A) (l : List (K × A)) :
    plainFold l0 (e :: l) = plainFold (mapSetA l0 e.1 e.2) l := rfl

theorem plainFold_append (l0 l1 l2 : List (K × A)) :
    plainFold l0 (l1 ++ l2) = plainFold (plainFold l0 l1) l2 := by
  unfold plainFold
  rw [List.foldl_append]

theorem hasKeyA_append_false {l1 l2 : List (K × A)} {k : K}
    (h1 : hasKeyA l1 k = false) (h2 : hasKeyA l2 k = false) :
    hasKeyA (l1 ++ l2) k = false := by
  rw [hasKeyA_false_iff] at h1 h2 ⊢
  simp only [List.map_append, List.mem_append]
  intro h
  rcases h with h | h
  · exact h1 h
  · exact h2 h

theorem plainFold_fresh (l0 : List (K × A)) {l : List (K × A)}
    (hnd : (l.map Prod.fst).Nodup) (hf : ∀ e ∈ l, hasKeyA l0 e.1 = false) :
    plainFold l0 l = l0 ++ l := by
  induction l generalizing l0 with
  | nil => simp [plainFold]
  | cons e t ih =>
    simp only [List.map_cons, List.nodup_cons] at hnd
    have hfresh : hasKeyA l0 e.1 = false := hf e (List.mem_cons_self _ _)
    rw [plainFold_cons, mapSetA_of_fresh l0 e.2 hfresh]
    have hstep : plainFold (l0 ++ [(e.1, e.2)]) t = (l0 ++ [(e.1, e.2)]) ++ t := by
      refine ih _ hnd.2 ?_
      intro e2 he2
      apply hasKeyA_append_false (hf e2 (List.mem_cons_of_mem _ he2))
      rw [hasKeyA_false_iff]
      simp only [List.map_cons, List.map_nil, List.mem_singleton]
      intro hh
      exact hnd.1 (hh ▸ List.mem_map_of_mem Prod.fst he2)
    rw [hstep]
    simp

theorem plainFold_nil_of_nodup {l : List (K × A)} (hnd : (l.map Prod.fst).Nodup) :
    plainFold ([] : List (K × A)) l = l := by
  rw [plainFold_fresh [] hnd (fun e _ => rfl)]
  simp

theorem keys_mapSetA_fresh (l : List (K × A)) {k : K} (v : A)
    (h : hasKeyA l k = false) :
    (mapSetA l k v).map Prod.fst = l.map Prod.fst ++ [k] := by
  rw [mapSetA_of_fresh l v h]
  simp

theorem keys_plainFold_nodup {l0 l : List (K × A)} (hnd : (l0.map Prod.fst).Nodup) :
    ((plainFold l0 l).map Prod.fst).Nodup := by
  induction l generalizing l0 with
  | nil => exact hnd
  | cons e t ih =>
    rw [plainFold_cons]
    apply ih
    cases hh : hasKeyA l0 e.1 with
    | true => rw [keys_mapSetA_of_has l0 e.2 hh]; exact hnd
    | false =>
      rw [keys_mapSetA_fresh l0 e.2 hh]
      rw [List.nodup_append]
      refine ⟨hnd, List.nodup_singleton _, ?_⟩
      intro a ha
      simp only [List.mem_singleton]
      intro heq
      rw [hasKeyA_false_iff] at hh
      exact hh (heq ▸ ha)

theorem length_plainFold_le (l0 l : List (K × A)) :
    (plainFold l0 l).length ≤ l0.length + l.length := by
  induction l generalizing l0 with
  | nil => simp [plainFold]
  | cons e t ih =>
    rw [plainFold_cons]
    have h1 := ih (mapSetA l0 e.1 e.2)
    have h2 := length_mapSetA_le l0 e.1 e.2
    simp only [List.length_cons]
    omega

theorem lookupA_plainFold_of_not_mem {l : List (K × A)} (l0 : List (K × A)) {k : K}
    (h : ∀ e ∈ l, e.1 ≠ k) : lookupA (plainFold l0 l) k = lookupA l0 k := by
  induction l generalizing l0 with
  | nil => rfl
  | cons e t ih =>
    rw [plainFold_cons, ih _ (fun e2 he2 => h e2 (List.mem_cons_of_mem _ he2))]
    exact lookupA_mapSetA_ne l0 e.2 (h e (List.mem_cons_self _ _)).symm

theorem lookupA_plainFold_of_mem_nodup {l : List (K × A)} (l0 : List (K × A)) {k : K}
    (hnd : (l.map Prod.fst).Nodup) (h : hasKeyA l k = true) :
    lookupA (plainFold l0 l) k = lookupA l k := by
  induction l generalizing l0 with
  | nil => simp [hasKeyA, lookupA] at h
  | cons e t ih =>
    simp only [List.map_cons, List.nodup_cons] at hnd
    by_cases he : e.1 = k
    · subst he
      rw [plainFold_cons]
      have hnm : ∀ e2 ∈ t, e2.1 ≠ e.1 := by
        intro e2 he2 hh
        apply hnd.1
        rw [← hh]
        exact List.mem_map_of_mem Prod.fst he2
      rw [lookupA_plainFold_of_not_mem _ hnm]
      rw [lookupA_mapSetA_self, lookupA, if_pos rfl]
    · have h2 : hasKeyA t k = true := by simpa [hasKeyA, lookupA, he] using h
      rw [plainFold_cons, ih _ hnd.2 h2, lookupA, if_neg he]

end PlainFoldLemmas

namespace SuperMap

variable {K V : Type} [DecidableEq K]

theorem set_of_limit_zero (m : SuperMap K V) (k : K) (v : V) (now ttl : Int)
    (h : m.itemsLimit = 0) : m.set k v now ttl = m := by
  unfold set
  rw [if_pos (by omega), if_pos h]

theorem set_of_neg (m : SuperMap K V) (k : K) (v : V) (now ttl : Int)
    (h : m.itemsLimit ≤ -1) : m.set k v now ttl = m.insertRaw k v now ttl := by
  unfold set
  rw [if_neg (by omega)]

theorem set_of_has (m : SuperMap K V) (k : K) (v : V) (now ttl : Int)
    (h : hasKeyA m.entries k = true) (h0 : m.itemsLimit ≠ 0) :
    m.set k v now ttl = m.insertRaw k v now ttl := by
  unfold set
  by_cases hl : -1 < m.itemsLimit
  · rw [if_pos hl, if_neg h0, if_neg (by simp [h])]
  · rw [if_neg hl]

theorem set_of_room (m : SuperMap K V) (k : K) (v : V) (now ttl : Int)
    (h : ¬ m.itemsLimit ≤ (m.entries.length : Int)) :
    m.set k v now ttl = m.insertRaw k v now ttl := by
  have hpos : 0 < m.itemsLimit := by
    have : (0 : Int) ≤ (m.entries.length : Int) := Int.ofNat_nonneg _
    omega
  unfold set
  rw [if_pos (by omega), if_neg (by omega), if_neg (by simp [h])]

theorem set_of_evict (m : SuperMap K V) (k : K) (v : V) (now ttl : Int)
    (h1 : 0 < m.itemsLimit) (h2 : m.itemsLimit ≤ (m.entries.length : Int))
    (h3 : hasKeyA m.entries k = false) :
    m.set k v now ttl = m.evictFirst.insertRaw k v now ttl := by
  unfold set
  rw [if_pos (by omega), if_neg (by omega), if_pos ⟨h2, h3⟩]

theorem entries_insertRaw (m : SuperMap K V) (k : K) (v : V) (now ttl : Int) :
    (m.insertRaw k v now ttl).entries = mapSetA m.entries k v := rfl

theorem itemsLimit_insertRaw (m : SuperMap K V) (k : K) (v : V) (now ttl : Int) :
    (m.insertRaw k v now ttl).itemsLimit = m.itemsLimit := rfl

theorem entries_deleteKey (m : SuperMap K V) (k : K) :
    (m.deleteKey k).entries = mapDeleteA m.entries k := rfl

theorem itemsLimit_deleteKey (m : SuperMap K V) (k : K) :
    (m.deleteKey k).itemsLimit = m.itemsLimit := rfl

theorem itemsLimit_evictFirst (m : SuperMap K V) :
    m.evictFirst.itemsLimit = m.itemsLimit := by
  unfold evictFirst
  cases m.entries <;> rfl

theorem itemsLimit_set (m : SuperMap K V) (k : K) (v : V) (now ttl : Int) :
    (m.set k v now ttl).itemsLimit = m.itemsLimit := by
  unfold set
  split
  · split
    · rfl
    · rw [itemsLimit_insertRaw]
      split
      · rw [itemsLimit_evictFirst]
      · rfl
  · rfl

theorem itemsLimit_applyOp (m : SuperMap K V) (o : Op K V) :
    (applyOp m o).itemsLimit = m.itemsLimit := by
  cases o with
  | ins k v now ttl => exact itemsLimit_set m k v now ttl
  | del k => rfl

theorem length_set_le {N : Int} (m : SuperMap K V) (k : K) (v : V) (now ttl : Int)
    (hlim : m.itemsLimit = N) (hN : 1 ≤ N)
    (hle : (m.entries.length : Int) ≤ N) :
    (((m.set k v now ttl).entries.length : Int)) ≤ N := by
  cases hk : hasKeyA m.entries k with
  | true =>
    rw [set_of_has m k v now ttl hk (by omega), entries_insertRaw,
      length_mapSetA_of_has _ _ hk]
    exact hle
  | false =>
    by_cases hroom : m.itemsLimit ≤ (m.entries.length : Int)
    · have hfull : (m.entries.length : Int) = N := by omega
      cases hm : m.entries with
      | nil => simp [hm] at hfull; omega
      | cons e rest =>
        rw [set_of_evict m k v now ttl (by omega) hroom hk, entries_insertRaw]
        have hev : m.evictFirst = m.deleteKey e.1 := by
          unfold evictFirst
          rw [hm]
        have hevEntries : m.evictFirst.entries = rest := by
          rw [hev, entries_deleteKey, hm, mapDeleteA_cons_self]
        have hkrest : hasKeyA m.evictFirst.entries k = false := by
          rw [hev, entries_deleteKey]
          exact hasKeyA_mapDeleteA_false _ _ hk
        rw [mapSetA_of_fresh _ _ hkrest, hevEntries]
        have : rest.length + 1 = m.entries.length := by rw [hm]; simp
        simp only [List.length_append, List.length_cons, List.length_nil]
        omega
    · rw [set_of_room m k v now ttl hroom, entries_insertRaw]
      have := length_mapSetA_le m.entries k v
      have h2 : ((mapSetA m.entries k v).length : Int) ≤ (m.entries.length : Int) + 1 := by
        exact_mod_cast this
      omega

theorem length_runOps_le {N : Int} (ops : List (Op K V)) (m : SuperMap K V)
    (hlim : m.itemsLimit = N) (hN : 1 ≤ N)
    (hle : (m.entries.length : Int) ≤ N) :
    ((runOps m ops).entries.length : Int) ≤ N := by
  induction ops generalizing m with
  | nil => exact hle
  | cons o t ih =>
    have hstep : ((applyOp m o).entries.length : Int) ≤ N := by
      cases o with
      | ins k v now ttl => exact length_set_le m k v now ttl hlim hN hle
      | del k =>
        have := length_mapDeleteA_le m.entries k
        have h2 : ((mapDeleteA m.entries k).length : Int) ≤ (m.entries.length : Int) := by
          exact_mod_cast this
        simp only [applyOp, entries_deleteKey]
        omega
    have hlim2 : (applyOp m o).itemsLimit = N := by rw [itemsLimit_applyOp]; exact hlim
    exact ih (applyOp m o) hlim2 hstep

end SuperMap

namespace SuperMap

variable {K V : Type} [DecidableEq K]

theorem evictFirst_cons (m : SuperMap K V) (e : K × V) (rest : List (K × V))
    (hm : m.entries = e :: rest) : m.evictFirst = m.deleteKey e.1 := by
  simp only [evictFirst, hm]

theorem runInserts_suffix {N : Nat} (hN : 1 ≤ N) (ps : List (K × V)) :
    ∀ m : SuperMap K V, m.itemsLimit = (N : Int) →
      (m.entries.map Prod.fst ++ ps.map Prod.fst).Nodup →
      m.entries.length ≤ N →
      (runOps m (insertsOf ps)).entries =
        (m.entries ++ ps).drop (m.entries.length + ps.length - N) := by
  induction ps with
  | nil =>
    intro m hlim hnd hle
    have hidx : m.entries.length + ([] : List (K × V)).length - N = 0 := by
      simp only [List.length_nil]
      omega
    rw [hidx, List.drop_zero, List.append_nil]
    rfl
  | cons p t ih =>
    intro m hlim hnd hle
    have hfresh : hasKeyA m.entries p.1 = false := by
      rw [hasKeyA_false_iff]
      intro hmem
      rcases List.nodup_append.mp hnd with ⟨hnd1, hnd2, hdisj⟩
      exact hdisj hmem (by simp)
    have hrun : runOps m (insertsOf (p :: t)) =
        runOps (m.set p.1 p.2 0 0) (insertsOf t) := rfl
    by_cases hroom : m.entries.length < N
    · have hlen : (m.entries.length : Int) < (N : Int) := by exact_mod_cast hroom
      have hset : m.set p.1 p.2 0 0 = m.insertRaw p.1 p.2 0 0 :=
        set_of_room m p.1 p.2 0 0 (by rw [hlim]; omega)
      have hentries : (m.set p.1 p.2 0 0).entries = m.entries ++ [p] := by
        rw [hset, entries_insertRaw, mapSetA_of_fresh _ _ hfresh]
      have hlim2 : (m.set p.1 p.2 0 0).itemsLimit = (N : Int) := by
        rw [itemsLimit_set, hlim]
      have hnd2 : ((m.set p.1 p.2 0 0).entries.map Prod.fst ++ t.map Prod.fst).Nodup := by
        rw [hentries]
        simp only [List.map_append, List.map_cons, List.map_nil, List.append_assoc,
          List.singleton_append]
        simpa only [List.map_cons] using hnd
      have hle2 : (m.set p.1 p.2 0 0).entries.length ≤ N := by
        rw [hentries]
        simp only [List.length_append, List.length_cons, List.length_nil]
        omega
      rw [hrun, ih _ hlim2 hnd2 hle2, hentries]
      have hidx : (m.entries ++ [p]).length + t.length - N
          = m.entries.length + (p :: t).length - N := by
        simp only [List.length_append, List.length_cons, List.length_nil]
        omega
      rw [hidx]
      congr 1
      simp
    · have hfull : m.entries.length = N := by omega
      cases hm : m.entries with
      | nil =>
        rw [hm] at hfull
        simp only [List.length_nil] at hfull
        omega
      | cons e rest =>
        have hlenInt : (N : Int) ≤ (m.entries.length : Int) := by
          rw [hfull]
        have hset : m.set p.1 p.2 0 0 = m.evictFirst.insertRaw p.1 p.2 0 0 :=
          set_of_evict m p.1 p.2 0 0 (by rw [hlim]; omega)
            (by rw [hlim]; exact hlenInt) hfresh
        have hevE : m.evictFirst.entries = rest := by
          rw [evictFirst_cons m e rest hm, entries_deleteKey, hm, mapDeleteA_cons_self]
        have hfresh2 : hasKeyA m.evictFirst.entries p.1 = false := by
          rw [evictFirst_cons m e rest hm, entries_deleteKey]
          exact hasKeyA_mapDeleteA_false _ _ hfresh
        have hentries : (m.set p.1 p.2 0 0).entries = rest ++ [p] := by
          rw [hset, entries_insertRaw, mapSetA_of_fresh _ _ hfresh2, hevE]
        have hlim2 : (m.set p.1 p.2 0 0).itemsLimit = (N : Int) := by
          rw [hset, itemsLimit_insertRaw, itemsLimit_evictFirst, hlim]
        have hresl : rest.length + 1 = N := by
          rw [hm] at hfull
          simpa using hfull
        have hnd2 : ((m.set p.1 p.2 0 0).entries.map Prod.fst ++ t.map Prod.fst).Nodup := by
          rw [hentries]
          simp only [List.map_append, List.map_cons, List.map_nil, List.append_assoc,
            List.singleton_append]
          have hndc : (e.1 :: (rest.map Prod.fst ++ p.1 :: t.map Prod.fst)).Nodup := by
            rw [hm] at hnd
            simpa only [List.map_cons, List.cons_append] using hnd
          exact hndc.of_cons
        have hle2 : (m.set p.1 p.2 0 0).entries.length ≤ N := by
          rw [hentries]
          simp only [List.length_append, List.length_cons, List.length_nil]
          omega
        rw [hrun, ih _ hlim2 hnd2 hle2, hentries]
        have hidx1 : (rest ++ [p]).length + t.length - N = t.length := by
          simp only [List.length_append, List.length_cons, List.length_nil]
          omega
        have hidx2 : (e :: rest).length + (p :: t).length - N = t.length + 1 := by
          simp only [List.length_cons]
          omega
        rw [hidx1, hidx2, List.cons_append, List.drop_succ_cons]
        congr 1
        simp

end SuperMap

namespace SuperMap

variable {K V : Type} [DecidableEq K]

theorem sweepFold_logs (s : V → K → Bool) (l : List (K × V)) :
    ∀ (mm : SuperMap K V) (sl ol : List (K × V)),
      (l.foldl (sweepStep s) (mm, sl, ol)).2.1 = sl ++ l
      ∧ (l.foldl (sweepStep s) (mm, sl, ol)).2.2 = ol ++ l.filter (fun e => s e.2 e.1) := by
  induction l with
  | nil =>
    intro mm sl ol
    simp
  | cons e t ih =>
    intro mm sl ol
    rw [List.foldl_cons]
    cases hs : s e.2 e.1 with
    | true =>
      have hstep : sweepStep s (mm, sl, ol) e = (mm.deleteKey e.1, sl ++ [e], ol ++ [e]) := by
        simp [sweepStep, hs]
      rw [hstep]
      rcases ih (mm.deleteKey e.1) (sl ++ [e]) (ol ++ [e]) with ⟨h1, h2⟩
      refine ⟨by rw [h1]; simp, by rw [h2]; simp [List.filter_cons, hs]⟩
    | false =>
      have hstep : sweepStep s (mm, sl, ol) e = (mm, sl ++ [e], ol) := by
        simp [sweepStep, hs]
      rw [hstep]
      rcases ih mm (sl ++ [e]) ol with ⟨h1, h2⟩
      refine ⟨by rw [h1]; simp, by rw [h2]; simp [List.filter_cons, hs]⟩

theorem sweepGo_throw (s : V → K → Bool) (cb : V → K → Bool) (k : K) (v : V)
    (post : List (K × V)) :
    ∀ (pre : List (K × V)) (mm : SuperMap K V),
      ((pre ++ (k, v) :: post).map Prod.fst).Nodup →
      (∀ e ∈ pre ++ (k, v) :: post, lookupA mm.entries e.1 = some e.2) →
      (∀ e ∈ pre, s e.2 e.1 = true → cb e.2 e.1 = false) →
      s v k = true → cb v k = true →
      (sweepGo s cb (pre ++ (k, v) :: post) mm).2 = true
      ∧ lookupA (sweepGo s cb (pre ++ (k, v) :: post) mm).1.entries k = some v
      ∧ ∀ e ∈ post,
          lookupA (sweepGo s cb (pre ++ (k, v) :: post) mm).1.entries e.1 = some e.2 := by
  intro pre
  induction pre with
  | nil =>
    intro mm hnd hpres hpre hs hcb
    simp only [List.nil_append]
    have hgo : sweepGo s cb ((k, v) :: post) mm = (mm, true) := by
      simp [sweepGo, hs, hcb]
    rw [hgo]
    refine ⟨rfl, hpres (k, v) (by simp), ?_⟩
    intro e he
    exact hpres e (List.mem_cons_of_mem _ he)
  | cons e0 pre2 ih =>
    intro mm hnd hpres hpre hs hcb
    simp only [List.cons_append] at hnd hpres ⊢
    simp only [List.map_cons, List.nodup_cons] at hnd
    cases hs0 : s e0.2 e0.1 with
    | false =>
      have hgo : sweepGo s cb (e0 :: (pre2 ++ (k, v) :: post)) mm
          = sweepGo s cb (pre2 ++ (k, v) :: post) mm := by
        simp [sweepGo, hs0]
      rw [hgo]
      exact ih mm hnd.2 (fun e he => hpres e (List.mem_cons_of_mem _ he))
        (fun e he => hpre e (List.mem_cons_of_mem _ he)) hs hcb
    | true =>
      have hcb0 : cb e0.2 e0.1 = false := hpre e0 (List.mem_cons_self _ _) hs0
      have hgo : sweepGo s cb (e0 :: (pre2 ++ (k, v) :: post)) mm
          = sweepGo s cb (pre2 ++ (k, v) :: post) (mm.deleteKey e0.1) := by
        simp [sweepGo, hs0, hcb0]
      rw [hgo]
      apply ih (mm.deleteKey e0.1) hnd.2
      · intro e he
        rw [entries_deleteKey, lookupA_mapDeleteA_ne]
        · exact hpres e (List.mem_cons_of_mem _ he)
        · intro hh
          apply hnd.1
          rw [← hh]
          exact List.mem_map_of_mem Prod.fst he
      · intro e he
        exact hpre e (List.mem_cons_of_mem _ he) 
      · exact hs
      · exact hcb

theorem zipDates_map_fst (l : List (K × V)) :
    ∀ ds : List Int, (zipDates l ds).map (fun p => p.1) = l := by
  induction l with
  | nil =>
    intro ds
    cases ds <;> rfl
  | cons e t ih =>
    intro ds
    cases ds with
    | nil => simp [zipDates, ih]
    | cons d ds2 => simp [zipDates, ih]

theorem tickFold_log (ea now : Int) (l : List ((K × V) × Int)) :
    ∀ (mm : SuperMap K V) (log : List (K × V × List (K × V))),
      ((l.map (fun p => p.1.1)).Nodup) →
      (∀ p ∈ l, lookupA mm.entries p.1.1 = some p.1.2) →
      (∀ e ∈ log, lookupA e.2.2 e.1 = some e.2.1) →
      ∀ e ∈ (l.foldl (tickStep ea now) (mm, log)).2, lookupA e.2.2 e.1 = some e.2.1 := by
  induction l with
  | nil =>
    intro mm log hnd hpres hlog
    simpa using hlog
  | cons p t ih =>
    intro mm log hnd hpres hlog
    rw [List.foldl_cons]
    simp only [List.map_cons, List.nodup_cons] at hnd
    by_cases hexp : ea < now - p.2
    · have hstep : tickStep ea now (mm, log) p
          = (mm.deleteKey p.1.1, log ++ [(p.1.1, p.1.2, mm.entries)]) := by
        simp [tickStep, hexp]
      rw [hstep]
      apply ih _ _ hnd.2
      · intro q hq
        rw [entries_deleteKey, lookupA_mapDeleteA_ne]
        · exact hpres q (List.mem_cons_of_mem _ hq)
        · intro hh
          apply hnd.1
          rw [← hh]
          exact List.mem_map_of_mem (fun p => p.1.1) hq
      · intro e he
        rcases List.mem_append.mp he with h | h
        · exact hlog e h
        · have he2 : e = (p.1.1, p.1.2, mm.entries) := List.mem_singleton.mp h
          rw [he2]
          exact hpres p (List.mem_cons_self _ _)
    · have hstep : tickStep ea now (mm, log) p = (mm, log) := by
        simp [tickStep, hexp]
      rw [hstep]
      exact ih _ _ hnd.2 (fun q hq => hpres q (List.mem_cons_of_mem _ hq)) hlog

end SuperMap

section FoldHelpers

variable {α β : Type}

theorem foldl_append_map (g : α → β) (l : List α) :
    ∀ acc : List β, l.foldl (fun acc a => acc ++ [g a]) acc = acc ++ l.map g := by
  induction l with
  | nil => intro acc; simp
  | cons a t ih =>
    intro acc
    rw [List.foldl_cons, ih]
    simp

theorem foldl_filter_append_map (g : α → β) (pB : α → Bool) (l : List α) :
    ∀ acc : List β,
      l.foldl (fun acc a => if pB a then acc ++ [g a] else acc) acc
        = acc ++ (l.filter pB).map g := by
  induction l with
  | nil => intro acc; simp
  | cons a t ih =>
    intro acc
    rw [List.foldl_cons]
    cases hp : pB a with
    | true =>
      rw [if_pos rfl, ih]
      simp [List.filter_cons, hp]
    | false =>
      rw [if_neg (by simp), ih]
      simp [List.filter_cons, hp]

theorem foldl_if_skip (step : β → α → β) (pB : α → Bool) (l : List α) :
    ∀ b : β, l.foldl (fun b a => if pB a then step b a else b) b
      = (l.filter pB).foldl step b := by
  induction l with
  | nil => intro b; simp
  | cons a t ih =>
    intro b
    rw [List.foldl_cons]
    cases hp : pB a with
    | true =>
      rw [if_pos rfl, ih]
      simp [List.filter_cons, hp]
    | false =>
      rw [if_neg (by simp), ih]
      simp [List.filter_cons, hp]

end FoldHelpers

namespace SuperMap0

variable {K V T : Type} [DecidableEq K]

theorem entries_emptyLike (m : SuperMap0 K V) : m.emptyLike.entries = [] := rfl

theorem capacity_emptyLike (m : SuperMap0 K V) : m.emptyLike.capacity = m.capacity := rfl

theorem set_ttl0_of_room (m : SuperMap0 K V) (k : K) (v : V)
    (h : m.entries.length < m.capacity) :
    m.set k v 0 0 = { m with entries := mapSetA m.entries k v } := by
  have hc : ¬ (m.capacity ≤ m.entries.length ∧ hasKeyA m.entries k = false) := by
    intro hc
    exact absurd hc.1 (by omega)
  unfold set
  rw [if_neg hc, if_neg (by omega : ¬ (0 : Int) < 0)]

theorem foldSet0_noEvict (l : List (K × V)) :
    ∀ m : SuperMap0 K V, m.entries.length + l.length ≤ m.capacity →
      (foldSet0 m l).entries = plainFold m.entries l
      ∧ (foldSet0 m l).capacity = m.capacity := by
  induction l with
  | nil =>
    intro m h
    exact ⟨rfl, rfl⟩
  | cons e t ih =>
    intro m h
    simp only [List.length_cons] at h
    have hroom : m.entries.length < m.capacity := by omega
    have hset := set_ttl0_of_room m e.1 e.2 hroom
    have hfold : foldSet0 m (e :: t) = foldSet0 (m.set e.1 e.2 0 0) t := rfl
    have hlen := length_mapSetA_le m.entries e.1 e.2
    rw [hfold, hset]
    rcases ih { m with entries := mapSetA m.entries e.1 e.2 }
      (by
        show (mapSetA m.entries e.1 e.2).length + t.length ≤ m.capacity
        omega) with ⟨h1, h2⟩
    constructor
    · rw [h1, plainFold_cons]
    · rw [h2]

theorem concat_two (a b c : SuperMap0 K V) :
    a.concat [b, c]
      = foldSet0 (foldSet0 (foldSet0 a.emptyLike b.entries) c.entries) a.entries := rfl

theorem concat_one (a b : SuperMap0 K V) :
    a.concat [b] = foldSet0 (foldSet0 a.emptyLike b.entries) a.entries := rfl

theorem filter_eq_foldSet0 (m : SuperMap0 K V) (p : V → K → Bool) :
    m.filter p = foldSet0 m.emptyLike (m.entries.filter (fun e => p e.2 e.1)) := by
  unfold filter foldSet0
  exact foldl_if_skip (fun mm e => mm.set e.1 e.2 0 0) (fun e => p e.2 e.1) m.entries m.emptyLike

theorem mapNF_eq (m : SuperMap0 K V) (f : V → K → T) :
    m.mapNF f = m.entries.map (fun e => f e.2 e.1) := by
  unfold mapNF
  rw [foldl_append_map (fun e => f e.2 e.1) m.entries []]
  simp

theorem mapF_eq (m : SuperMap0 K V) (f : V → K → T) (p : V → K → Bool) :
    m.mapF f p = (m.entries.filter (fun e => p e.2 e.1)).map (fun e => f e.2 e.1) := by
  unfold mapF
  rw [foldl_filter_append_map (fun e => f e.2 e.1) (fun e => p e.2 e.1) m.entries []]
  simp

theorem traceFold_eq (f : V → K → T) (p : V → K → Bool) (l : List (K × V)) :
    ∀ pc fc : List (K × V), ∀ rs : List T,
      l.foldl (traceStep f p) (pc, fc, rs)
        = (pc ++ l, fc ++ l.filter (fun e => p e.2 e.1),
           rs ++ (l.filter (fun e => p e.2 e.1)).map (fun e => f e.2 e.1)) := by
  induction l with
  | nil =>
    intro pc fc rs
    simp
  | cons e t ih =>
    intro pc fc rs
    rw [List.foldl_cons]
    cases hp : p e.2 e.1 with
    | true =>
      have hstep : traceStep f p (pc, fc, rs) e
          = (pc ++ [e], fc ++ [e], rs ++ [f e.2 e.1]) := by
        simp [traceStep, hp]
      rw [hstep, ih]
      simp [List.filter_cons, hp]
    | false =>
      have hstep : traceStep f p (pc, fc, rs) e = (pc ++ [e], fc, rs) := by
        simp [traceStep, hp]
      rw [hstep, ih]
      simp [List.filter_cons, hp]

end SuperMap0

/-- Claim C1 (amended): with capacity limit `N ≥ 1`, `size() ≤ N` holds
after every sequence of insert, re-insert and delete operations; the
capacity check happens at insert time, before the new entry is added,
evicting the entry that is first in insertion order; and for sequences
consisting solely of inserts of pairwise-distinct keys the surviving
entries are exactly the `N` most recently inserted ones (re-insertion of
an existing key does not refresh its position, so with re-inserts eviction
follows first-insertion order, not recency — see the counterexample). -/
theorem c1_capacity_invariant {K V : Type} [DecidableEq K] (N : Nat) (hN : 1 ≤ N)
    (ops : List (Op K V)) (ps : List (K × V)) (hps : (ps.map Prod.fst).Nodup) :
    (SuperMap.runOps (SuperMap.init K V (N : Int)) ops).entries.length ≤ N
    ∧ (SuperMap.runOps (SuperMap.init K V (N : Int)) (SuperMap.insertsOf ps)).entries
        = ps.drop (ps.length - N) := by
  constructor
  · have h := SuperMap.length_runOps_le (N := (N : Int)) ops
      (SuperMap.init K V (N : Int)) rfl (by exact_mod_cast hN)
      (by simp [SuperMap.init])
    exact_mod_cast h
  · have hnd : ((SuperMap.init K V (N : Int)).entries.map Prod.fst
        ++ ps.map Prod.fst).Nodup := by
      simpa [SuperMap.init] using hps
    have hle : (SuperMap.init K V (N : Int)).entries.length ≤ N := by
      simp [SuperMap.init]
    have h := SuperMap.runInserts_suffix hN ps (SuperMap.init K V (N : Int)) rfl hnd hle
    simpa [SuperMap.init] using h

/-- Claim C1 counterexample: with capacity 2, after inserting keys 1 and 2,
re-inserting key 1, and inserting key 3, the survivors are keys `[2, 3]`;
key 1 — inserted more recently than key 2 — was evicted, so the surviving
entries are not the 2 most recently inserted keys. -/
theorem c1_counterexample :
    (SuperMap.runOps (SuperMap.init Nat Nat 2)
      [Op.ins 1 10 0 0, Op.ins 2 20 0 0, Op.ins 1 11 0 0, Op.ins 3 30 0 0]).entries.map
        Prod.fst = [2, 3]
    ∧ 1 ∉ ((SuperMap.runOps (SuperMap.init Nat Nat 2)
      [Op.ins 1 10 0 0, Op.ins 2 20 0 0, Op.ins 1 11 0 0, Op.ins 3 30 0 0]).entries.map
        Prod.fst) := by
  decide

theorem c1_witness :
    (1 ≤ 2 ∧ (([(1, 10), (2, 20), (3, 30)] : List (Nat × Nat)).map Prod.fst).Nodup)
    ∧ ((SuperMap.runOps (SuperMap.init Nat Nat ((2 : Nat) : Int))
          [Op.ins 5 50 0 0]).entries.length ≤ 2
       ∧ (SuperMap.runOps (SuperMap.init Nat Nat ((2 : Nat) : Int))
            (SuperMap.insertsOf [(1, 10), (2, 20), (3, 30)])).entries
          = ([(1, 10), (2, 20), (3, 30)] : List (Nat × Nat)).drop
              (([(1, 10), (2, 20), (3, 30)] : List (Nat × Nat)).length - 2)) :=
  ⟨⟨by decide, by decide⟩,
   c1_capacity_invariant 2 (by decide) [Op.ins 5 50 0 0]
     [(1, 10), (2, 20), (3, 30)] (by decide)⟩

/-- Claim C2 (evaluation at the failing input): after `set(0, v1, ttl=100)`
at t=0 and the superseding `set(0, v2, ttl=200)` at t=1, the first timer is
still armed (`set` never clears the superseded timeout, it only overwrites
the handle-table entry), and when it fires at t=100 it deletes key 0 —
which at that point holds `v2` and should have lived until ~t=201 — and
invokes `onEntryExpiry` with the stale captured value `v1`; the second
timer later fires without effect.  This contradicts the claim that a
superseded timer never deletes the key or invokes the callback. -/
theorem c2_superseded_timer_fires :
    exC2.pending = [(0, 100, 0, 1), (1, 201, 0, 2)]
    ∧ lookupA exC2.entries 0 = some 2
    ∧ (exC2.fire 0).entries = []
    ∧ (exC2.fire 0).log = [(0, 1)]
    ∧ ((exC2.fire 0).fire 1).entries = []
    ∧ ((exC2.fire 0).fire 1).log = [(0, 1)] := by
  decide

/-- Claim C5: with `itemsLimit = 0`, every insert is a no-op returning the
container unchanged, and any sequence of inserts leaves the container
exactly as it was (in particular, empty containers stay empty). -/
theorem c5_limit_zero {K V : Type} [DecidableEq K] (m : SuperMap K V)
    (h0 : m.itemsLimit = 0) (k : K) (v : V) (now ttl : Int) (ps : List (K × V)) :
    m.set k v now ttl = m ∧ SuperMap.runOps m (SuperMap.insertsOf ps) = m := by
  refine ⟨SuperMap.set_of_limit_zero m k v now ttl h0, ?_⟩
  induction ps with
  | nil => rfl
  | cons p t ih =>
    have hstep : SuperMap.runOps m (SuperMap.insertsOf (p :: t))
        = SuperMap.runOps (m.set p.1 p.2 0 0) (SuperMap.insertsOf t) := rfl
    rw [hstep, SuperMap.set_of_limit_zero m p.1 p.2 0 0 h0]
    exact ih

theorem c5_witness :
    (SuperMap.init Nat Nat 0).itemsLimit = 0
    ∧ ((SuperMap.init Nat Nat 0).set 7 8 0 0 = SuperMap.init Nat Nat 0
       ∧ SuperMap.runOps (SuperMap.init Nat Nat 0)
           (SuperMap.insertsOf [(1, 2), (3, 4)]) = SuperMap.init Nat Nat 0) :=
  ⟨by decide, c5_limit_zero (SuperMap.init Nat Nat 0) (by decide) 7 8 0 0 [(1, 2), (3, 4)]⟩

/-- Claim C9 counterexample: `set` returns the container itself
(`return super.set(key, value)` / `return this`), not the previous value
as an option — at the concrete input, the returned dynamic value is the
container, which differs from the previous-value option (`none` here) the
claim prescribes. -/
theorem c9_counterexample :
    SuperMap.setResult (SuperMap.init Nat Nat (-1)) 0 1 0 0
      ≠ SetResult.prevOption (SuperMap.insertSpecReturn (SuperMap.init Nat Nat (-1)) 0) := by
  decide

/-- Claim C9 (amended): `set` returns the container itself (for chaining),
not the previous value; when `itemsLimit ≠ 0` the returned container maps
the inserted key to the new value.  The previous value, if wanted, must be
read with a lookup before the insert. -/
theorem c9_amended {K V : Type} [DecidableEq K] (m : SuperMap K V) (k : K) (v : V)
    (now ttl : Int) (h0 : m.itemsLimit ≠ 0) :
    SuperMap.setResult m k v now ttl = SetResult.container (m.set k v now ttl)
    ∧ lookupA (m.set k v now ttl).entries k = some v := by
  refine ⟨rfl, ?_⟩
  unfold SuperMap.set
  by_cases hl : -1 < m.itemsLimit
  · rw [if_pos hl, if_neg h0, SuperMap.entries_insertRaw]
    exact lookupA_mapSetA_self _ _ _
  · rw [if_neg hl, SuperMap.entries_insertRaw]
    exact lookupA_mapSetA_self _ _ _

theorem c9_witness :
    (SuperMap.init Nat Nat (-1)).itemsLimit ≠ 0
    ∧ (SuperMap.setResult (SuperMap.init Nat Nat (-1)) 3 4 0 0
        = SetResult.container ((SuperMap.init Nat Nat (-1)).set 3 4 0 0)
       ∧ lookupA ((SuperMap.init Nat Nat (-1)).set 3 4 0 0).entries 3 = some 4) :=
  ⟨by decide, c9_amended (SuperMap.init Nat Nat (-1)) 3 4 0 0 (by decide)⟩

theorem sweepE_nonempty {K V : Type} [DecidableEq K] (m : SuperMap K V)
    (s cb : V → K → Bool) (h : m.entries.length ≠ 0) :
    m.sweepE s cb
      = ((SuperMap.sweepGo s cb m.entries m).1,
         if (SuperMap.sweepGo s cb m.entries m).2 then none
         else some ((m.entries.length : Int)
           - ((SuperMap.sweepGo s cb m.entries m).1.entries.length : Int))) := by
  unfold SuperMap.sweepE
  rw [if_neg h]

theorem sweepRun_nonempty {K V : Type} [DecidableEq K] (m : SuperMap K V)
    (s : V → K → Bool) (h : m.entries.length ≠ 0) :
    m.sweepRun s
      = ((m.entries.length : Int)
           - ((m.entries.foldl (SuperMap.sweepStep s) (m, [], [])).1.entries.length : Int),
         (m.entries.foldl (SuperMap.sweepStep s) (m, [], [])).1,
         (m.entries.foldl (SuperMap.sweepStep s) (m, [], [])).2.1,
         (m.entries.foldl (SuperMap.sweepStep s) (m, [], [])).2.2) := by
  unfold SuperMap.sweepRun
  rw [if_neg h]

/-- Claim C3 counterexample: both entries pass the sweeper and the
`onSweep` callback throws on the first one; the claim demands that the
first entry still be deleted and the remaining candidate be processed and
deleted (final container empty), but the code has no try/catch, so the
exception escapes (`none`) and the container still holds both entries. -/
theorem c3_counterexample :
    ((⟨[(1, 10), (2, 20)], none, -1, 0⟩ : SuperMap Nat Nat).sweepE
        (fun _ _ => true) (fun _ _ => true)).2 = none
    ∧ ((⟨[(1, 10), (2, 20)], none, -1, 0⟩ : SuperMap Nat Nat).sweepE
        (fun _ _ => true) (fun _ _ => true)).1.entries = [(1, 10), (2, 20)]
    ∧ ([(1, 10), (2, 20)] : List (Nat × Nat)) ≠ [] := by
  decide

/-- Claim C3 (amended): when the `onSweep` callback throws on a candidate
entry, the sweep aborts at that entry: the exception propagates to the
caller (no count is returned), the entry whose callback threw is NOT
deleted (it is still present with its value, since deletion follows the
callback), and every later candidate is NOT processed and remains present;
only candidates before the throwing entry were deleted. -/
theorem c3_amended {K V : Type} [DecidableEq K] (m : SuperMap K V)
    (s cb : V → K → Bool) (pre post : List (K × V)) (k : K) (v : V) (e2 : K × V)
    (hsplit : m.entries = pre ++ (k, v) :: post)
    (hnd : (m.entries.map Prod.fst).Nodup)
    (hpre : ∀ e ∈ pre, s e.2 e.1 = true → cb e.2 e.1 = false)
    (hs : s v k = true) (hcb : cb v k = true) (he2 : e2 ∈ post) :
    (m.sweepE s cb).2 = none
    ∧ lookupA (m.sweepE s cb).1.entries k = some v
    ∧ lookupA (m.sweepE s cb).1.entries e2.1 = some e2.2 := by
  have hne : m.entries.length ≠ 0 := by
    rw [hsplit]
    simp
  have hnd2 : ((pre ++ (k, v) :: post).map Prod.fst).Nodup := by
    rw [← hsplit]
    exact hnd
  have hpres : ∀ e ∈ pre ++ (k, v) :: post, lookupA m.entries e.1 = some e.2 := by
    intro e he
    apply lookupA_of_mem_nodup hnd
    rw [hsplit]
    exact he
  have hgo := SuperMap.sweepGo_throw s cb k v post pre m hnd2 hpres hpre hs hcb
  rw [← hsplit] at hgo
  refine ⟨?_, ?_, ?_⟩
  · rw [sweepE_nonempty m s cb hne]
    simp [hgo.1]
  · rw [sweepE_nonempty m s cb hne]
    exact hgo.2.1
  · rw [sweepE_nonempty m s cb hne]
    exact hgo.2.2 e2 he2

theorem c3_witness :
    (exC3.entries = [(1, 10)] ++ (2, 20) :: [(3, 30)]
      ∧ (exC3.entries.map Prod.fst).Nodup
      ∧ (∀ e ∈ [((1 : Nat), (10 : Nat))], exS3 e.2 e.1 = true → exCb3 e.2 e.1 = false)
      ∧ exS3 20 2 = true ∧ exCb3 20 2 = true
      ∧ ((3 : Nat), (30 : Nat)) ∈ [((3 : Nat), (30 : Nat))])
    ∧ ((exC3.sweepE exS3 exCb3).2 = none
       ∧ lookupA (exC3.sweepE exS3 exCb3).1.entries 2 = some 20
       ∧ lookupA (exC3.sweepE exS3 exCb3).1.entries 3 = some 30) :=
  ⟨⟨by decide, by decide, by decide, by decide, by decide, by decide⟩,
   c3_amended exC3 exS3 exCb3 [(1, 10)] [(3, 30)] 2 20 (3, 30)
     (by decide) (by decide) (by decide) (by decide) (by decide) (by decide)⟩

/-- Claim C4 counterexample: during the interval tick, the expired key 1 is
handed to the `onSweep` callback while the container still holds it —
`onSweep?.(v, k)` runs before `this.delete(k)` — contradicting the claim
that the callback only ever runs after the deletion (lookup absent). -/
theorem c4_counterexample :
    (exC4.onSweepTick 5).2 = [(1, 10, [(1, 10)])]
    ∧ ¬ (∀ e ∈ (exC4.onSweepTick 5).2, lookupA e.2.2 e.1 = none) := by
  decide

/-- Claim C4 (amended): the `onSweep` callback is invoked immediately
BEFORE the deletion, never after: at the moment the callback runs for an
expired key, the container still contains that key, bound to exactly the
value handed to the callback; the deletion happens right after the
callback returns. -/
theorem c4_amended {K V : Type} [DecidableEq K] (m : SuperMap K V) (now : Int)
    (e : K × V × List (K × V))
    (hnd : (m.entries.map Prod.fst).Nodup)
    (he : e ∈ (m.onSweepTick now).2) :
    lookupA e.2.2 e.1 = some e.2.1 := by
  unfold SuperMap.onSweepTick at he
  refine SuperMap.tickFold_log m.expireAfter now _ m [] ?_ ?_ ?_ e he
  · have hz := SuperMap.zipDates_map_fst m.entries ((m.dateCache.getD []).map Prod.snd)
    have hkeys := congrArg (List.map Prod.fst) hz
    rw [List.map_map] at hkeys
    rw [show ((fun p : (K × V) × Int => p.1.1))
        = (Prod.fst ∘ fun p : (K × V) × Int => p.1) from rfl]
    rw [hkeys]
    exact hnd
  · intro p hp
    have hmem : p.1 ∈ m.entries := by
      have h1 := List.mem_map_of_mem (fun q : (K × V) × Int => q.1) hp
      rw [SuperMap.zipDates_map_fst] at h1
      exact h1
    exact lookupA_of_mem_nodup hnd hmem
  · intro e2 he2
    simp at he2

theorem c4_witness :
    ((exC4w.entries.map Prod.fst).Nodup
      ∧ ((1 : Nat), (10 : Nat), [((1 : Nat), (10 : Nat)), (2, 20)]) ∈ (exC4w.onSweepTick 50).2)
    ∧ lookupA ([((1 : Nat), (10 : Nat)), (2, 20)] : List (Nat × Nat)) 1 = some 10 :=
  ⟨⟨by decide, by decide⟩,
   c4_amended exC4w 50 (1, 10, [(1, 10), (2, 20)]) (by decide) (by decide)⟩

/-- Claim C6: re-inserting a key that is already present (in a reachable
state: a zero-limit container is empty) updates its value and its recorded
expiry timestamp (`Date.now() + ttl` in the date cache), leaves the size
and the insertion-order position of every key unchanged, never evicts, and
leaves every other key's value untouched. -/
theorem c6_reinsert {K V : Type} [DecidableEq K] (m : SuperMap K V) (k : K) (v : V)
    (now ttl : Int) (k2 : K) (dc : List (K × Int))
    (hk : hasKeyA m.entries k = true)
    (h0 : m.itemsLimit = 0 → m.entries = [])
    (hk2 : k2 ≠ k) (hdc : m.dateCache = some dc) :
    (m.set k v now ttl).entries.map Prod.fst = m.entries.map Prod.fst
    ∧ (m.set k v now ttl).entries.length = m.entries.length
    ∧ lookupA (m.set k v now ttl).entries k = some v
    ∧ lookupA (m.set k v now ttl).entries k2 = lookupA m.entries k2
    ∧ (m.set k v now ttl).dateCache = some (mapSetA dc k (now + ttl)) := by
  have hne : m.itemsLimit ≠ 0 := by
    intro hz
    rw [h0 hz] at hk
    simp [hasKeyA, lookupA] at hk
  rw [SuperMap.set_of_has m k v now ttl hk hne]
  refine ⟨?_, ?_, ?_, ?_, ?_⟩
  · rw [SuperMap.entries_insertRaw]
    exact keys_mapSetA_of_has _ _ hk
  · rw [SuperMap.entries_insertRaw]
    exact length_mapSetA_of_has _ _ hk
  · rw [SuperMap.entries_insertRaw]
    exact lookupA_mapSetA_self _ _ _
  · rw [SuperMap.entries_insertRaw]
    exact lookupA_mapSetA_ne _ _ hk2
  · show (m.dateCache.map fun dcc => mapSetA dcc k (now + ttl)) = _
    rw [hdc]
    rfl

theorem c6_witness :
    (hasKeyA exC6.entries 1 = true
      ∧ (exC6.itemsLimit = 0 → exC6.entries = [])
      ∧ (2 : Nat) ≠ 1
      ∧ exC6.dateCache = some [(1, 0), (2, 0)])
    ∧ ((exC6.set 1 99 50 5).entries.map Prod.fst = exC6.entries.map Prod.fst
       ∧ (exC6.set 1 99 50 5).entries.length = exC6.entries.length
       ∧ lookupA (exC6.set 1 99 50 5).entries 1 = some 99
       ∧ lookupA (exC6.set 1 99 50 5).entries 2 = lookupA exC6.entries 2
       ∧ (exC6.set 1 99 50 5).dateCache = some (mapSetA [(1, 0), (2, 0)] 1 (50 + 5))) :=
  ⟨⟨by decide, by decide, by decide, by decide⟩,
   c6_reinsert exC6 1 99 50 5 2 [(1, 0), (2, 0)]
     (by decide) (by decide) (by decide) (by decide)⟩

/-- Claim C10: `sweep(sweeper)` on an empty container returns `-1` without
invoking the sweeper or the `onSweep` callback (both call logs empty, map
untouched); on a non-empty container it returns the size before the call
minus the size after, having invoked the sweeper once per entry in order
and the `onSweep` callback exactly on the entries passing the sweeper. -/
theorem c10_sweep {K V : Type} [DecidableEq K] (m0 m1 : SuperMap K V)
    (s : V → K → Bool) (h0 : m0.entries = []) (h1 : m1.entries ≠ []) :
    m0.sweepRun s = (-1, m0, [], [])
    ∧ (m1.sweepRun s).1
        = (m1.entries.length : Int) - ((m1.sweepRun s).2.1.entries.length : Int)
    ∧ (m1.sweepRun s).2.2.1 = m1.entries
    ∧ (m1.sweepRun s).2.2.2 = m1.entries.filter (fun e => s e.2 e.1) := by
  have hlen : m1.entries.length ≠ 0 := by
    intro hh
    exact h1 (List.length_eq_zero.mp hh)
  have hlogs := SuperMap.sweepFold_logs s m1.entries m1 [] []
  refine ⟨?_, ?_, ?_, ?_⟩
  · unfold SuperMap.sweepRun
    rw [if_pos (by rw [h0]; rfl)]
  · rw [sweepRun_nonempty m1 s hlen]
  · rw [sweepRun_nonempty m1 s hlen]
    simpa using hlogs.1
  · rw [sweepRun_nonempty m1 s hlen]
    simpa using hlogs.2

theorem c10_witness :
    ((SuperMap.init Nat Nat (-1)).entries = [] ∧ exC10.entries ≠ [])
    ∧ ((SuperMap.init Nat Nat (-1)).sweepRun exS10 = (-1, SuperMap.init Nat Nat (-1), [], [])
       ∧ (exC10.sweepRun exS10).1
           = (exC10.entries.length : Int) - ((exC10.sweepRun exS10).2.1.entries.length : Int)
       ∧ (exC10.sweepRun exS10).2.2.1 = exC10.entries
       ∧ (exC10.sweepRun exS10).2.2.2 = exC10.entries.filter (fun e => exS10 e.2 e.1)) :=
  ⟨⟨by decide, by decide⟩,
   c10_sweep (SuperMap.init Nat Nat (-1)) exC10 exS10 (by decide) (by decide)⟩

/-- Claim C8: for a container satisfying the class invariant (distinct
keys, size within capacity), the fused `map(f, pred)` returns exactly the
sequence produced by `filter(pred)` followed by `map(f)`, and its
generator applies the filter callback exactly once per entry (in order)
and the map callback exactly once per entry passing the filter. -/
theorem c8_fused {K V T : Type} [DecidableEq K] (m : SuperMap0 K V)
    (f : V → K → T) (p : V → K → Bool)
    (hnd : (m.entries.map Prod.fst).Nodup) (hlen : m.entries.length ≤ m.capacity) :
    (m.filter p).mapNF f = m.mapF f p
    ∧ (m.mapFusedTrace f p).1 = m.entries
    ∧ (m.mapFusedTrace f p).2.1 = m.entries.filter (fun e => p e.2 e.1)
    ∧ (m.mapFusedTrace f p).2.2 = m.mapF f p := by
  have hfe : (m.filter p).entries = m.entries.filter (fun e => p e.2 e.1) := by
    rw [SuperMap0.filter_eq_foldSet0]
    have hsub := List.length_filter_le (fun e => p e.2 e.1) m.entries
    have h := SuperMap0.foldSet0_noEvict (m.entries.filter (fun e => p e.2 e.1)) m.emptyLike
      (by
        rw [SuperMap0.entries_emptyLike, SuperMap0.capacity_emptyLike]
        simp only [List.length_nil]
        omega)
    rw [h.1, SuperMap0.entries_emptyLike]
    apply plainFold_nil_of_nodup
    exact List.Nodup.sublist ((List.filter_sublist _).map Prod.fst) hnd
  have htrace := SuperMap0.traceFold_eq f p m.entries ([] : List (K × V))
    ([] : List (K × V)) ([] : List T)
  unfold SuperMap0.mapFusedTrace
  refine ⟨?_, ?_, ?_, ?_⟩
  · rw [SuperMap0.mapNF_eq, hfe, SuperMap0.mapF_eq]
  · rw [htrace]
    simp
  · rw [htrace]
    simp
  · rw [htrace, SuperMap0.mapF_eq]
    simp

theorem c8_witness :
    ((exC8.entries.map Prod.fst).Nodup ∧ exC8.entries.length ≤ exC8.capacity)
    ∧ ((exC8.filter exP8).mapNF exF8 = exC8.mapF exF8 exP8
       ∧ (exC8.mapFusedTrace exF8 exP8).1 = exC8.entries
       ∧ (exC8.mapFusedTrace exF8 exP8).2.1 = exC8.entries.filter (fun e => exP8 e.2 e.1)
       ∧ (exC8.mapFusedTrace exF8 exP8).2.2 = exC8.mapF exF8 exP8) :=
  ⟨⟨by decide, by decide⟩, c8_fused exC8 exF8 exP8 (by decide) (by decide)⟩

/-- Claim C7 counterexample: `concat` merges the children first and the
receiver last, so on a key collision the receiver wins over the children;
with `a` empty, `b = {1 ↦ 10}` and `c = {1 ↦ 20}`, `a.concat(b, c)` maps
key 1 to 20 while `a.concat(b).concat(c)` maps it to 10 — the claimed
associativity law fails on both the final value and the entry list. -/
theorem c7_counterexample :
    lookupA (exC7a.concat [exC7b, exC7c]).entries 1 = some 20
    ∧ lookupA ((exC7a.concat [exC7b]).concat [exC7c]).entries 1 = some 10
    ∧ (exC7a.concat [exC7b, exC7c]).entries
        ≠ ((exC7a.concat [exC7b]).concat [exC7c]).entries := by
  decide

/-- Claim C7 (amended): `concat` merges the children in order and the
receiver last, the later insertion winning on key collision (so the
receiver wins over every child).  The law that actually holds is
`a.concat(b, c) = a.concat(c.concat(b))` — same entry order and values —
provided no capacity eviction occurs during the merges (the combined entry
counts fit in the capacities of `a` and of `c`, which build the fresh
result maps); and on every key of the receiver `a`, the merged container
keeps `a`'s value. -/
theorem c7_amended {K V : Type} [DecidableEq K] (a b c : SuperMap0 K V) (k2 : K)
    (hndA : (a.entries.map Prod.fst).Nodup)
    (hA : b.entries.length + c.entries.length + a.entries.length ≤ a.capacity)
    (hC : b.entries.length + c.entries.length ≤ c.capacity)
    (hk2 : hasKeyA a.entries k2 = true) :
    (a.concat [b, c]).entries = (a.concat [c.concat [b]]).entries
    ∧ lookupA (a.concat [b, c]).entries k2 = lookupA a.entries k2 := by
  have h1 := SuperMap0.foldSet0_noEvict b.entries a.emptyLike
    (by
      rw [SuperMap0.entries_emptyLike, SuperMap0.capacity_emptyLike]
      simp only [List.length_nil]
      omega)
  have h1e : (SuperMap0.foldSet0 a.emptyLike b.entries).entries
      = plainFold [] b.entries := by
    rw [h1.1, SuperMap0.entries_emptyLike]
  have h1c : (SuperMap0.foldSet0 a.emptyLike b.entries).capacity = a.capacity := by
    rw [h1.2, SuperMap0.capacity_emptyLike]
  have hlen0 : (plainFold ([] : List (K × V)) b.entries).length ≤ b.entries.length := by
    have hq := length_plainFold_le ([] : List (K × V)) b.entries
    simpa using hq
  have hlen1 : (SuperMap0.foldSet0 a.emptyLike b.entries).entries.length
      ≤ b.entries.length := by
    rw [h1e]
    exact hlen0
  have h2 := SuperMap0.foldSet0_noEvict c.entries (SuperMap0.foldSet0 a.emptyLike b.entries)
    (by rw [h1c]; omega)
  have h2e : (SuperMap0.foldSet0 (SuperMap0.foldSet0 a.emptyLike b.entries) c.entries).entries
      = plainFold (plainFold [] b.entries) c.entries := by
    rw [h2.1, h1e]
  have h2c : (SuperMap0.foldSet0 (SuperMap0.foldSet0 a.emptyLike b.entries) c.entries).capacity
      = a.capacity := by
    rw [h2.2, h1c]
  have hlen2 : (SuperMap0.foldSet0 (SuperMap0.foldSet0 a.emptyLike b.entries)
      c.entries).entries.length ≤ b.entries.length + c.entries.length := by
    rw [h2e]
    have hq := length_plainFold_le (plainFold ([] : List (K × V)) b.entries) c.entries
    omega
  have h3 := SuperMap0.foldSet0_noEvict a.entries
    (SuperMap0.foldSet0 (SuperMap0.foldSet0 a.emptyLike b.entries) c.entries)
    (by rw [h2c]; omega)
  have hL : (a.concat [b, c]).entries
      = plainFold (plainFold (plainFold [] b.entries) c.entries) a.entries := by
    rw [SuperMap0.concat_two, h3.1, h2e]
  have hx1 := SuperMap0.foldSet0_noEvict b.entries c.emptyLike
    (by
      rw [SuperMap0.entries_emptyLike, SuperMap0.capacity_emptyLike]
      simp only [List.length_nil]
      omega)
  have hx1e : (SuperMap0.foldSet0 c.emptyLike b.entries).entries
      = plainFold [] b.entries := by
    rw [hx1.1, SuperMap0.entries_emptyLike]
  have hx1c : (SuperMap0.foldSet0 c.emptyLike b.entries).capacity = c.capacity := by
    rw [hx1.2, SuperMap0.capacity_emptyLike]
  have hxlen1 : (SuperMap0.foldSet0 c.emptyLike b.entries).entries.length
      ≤ b.entries.length := by
    rw [hx1e]
    exact hlen0
  have hx2 := SuperMap0.foldSet0_noEvict c.entries (SuperMap0.foldSet0 c.emptyLike b.entries)
    (by rw [hx1c]; omega)
  have hXe : (c.concat [b]).entries = plainFold (plainFold [] b.entries) c.entries := by
    rw [SuperMap0.concat_one, hx2.1, hx1e]
  have hXnd : ((c.concat [b]).entries.map Prod.fst).Nodup := by
    rw [hXe]
    exact keys_plainFold_nodup (keys_plainFold_nodup (by simp))
  have hXlen : (c.concat [b]).entries.length ≤ b.entries.length + c.entries.length := by
    rw [hXe]
    have hq := length_plainFold_le (plainFold ([] : List (K × V)) b.entries) c.entries
    omega
  have hr1 := SuperMap0.foldSet0_noEvict (c.concat [b]).entries a.emptyLike
    (by
      rw [SuperMap0.entries_emptyLike, SuperMap0.capacity_emptyLike]
      simp only [List.length_nil]
      omega)
  have hr1e : (SuperMap0.foldSet0 a.emptyLike (c.concat [b]).entries).entries
      = (c.concat [b]).entries := by
    rw [hr1.1, SuperMap0.entries_emptyLike]
    exact plainFold_nil_of_nodup hXnd
  have hr1c : (SuperMap0.foldSet0 a.emptyLike (c.concat [b]).entries).capacity
      = a.capacity := by
    rw [hr1.2, SuperMap0.capacity_emptyLike]
  have hr1len : (SuperMap0.foldSet0 a.emptyLike (c.concat [b]).entries).entries.length
      ≤ b.entries.length + c.entries.length := by
    rw [hr1e]
    exact hXlen
  have hr2 := SuperMap0.foldSet0_noEvict a.entries
    (SuperMap0.foldSet0 a.emptyLike (c.concat [b]).entries)
    (by rw [hr1c]; omega)
  have hR : (a.concat [c.concat [b]]).entries
      = plainFold (plainFold (plainFold [] b.entries) c.entries) a.entries := by
    rw [SuperMap0.concat_one, hr2.1, hr1e, hXe]
  refine ⟨by rw [hL, hR], ?_⟩
  rw [hL]
  exact lookupA_plainFold_of_mem_nodup _ hndA hk2

theorem c7_witness :
    ((exC7a2.entries.map Prod.fst).Nodup
      ∧ exC7b.entries.length + exC7c.entries.length + exC7a2.entries.length
          ≤ exC7a2.capacity
      ∧ exC7b.entries.length + exC7c.entries.length ≤ exC7c.capacity
      ∧ hasKeyA exC7a2.entries 5 = true)
    ∧ ((exC7a2.concat [exC7b, exC7c]).entries
        = (exC7a2.concat [exC7c.concat [exC7b]]).entries
       ∧ lookupA (exC7a2.concat [exC7b, exC7c]).entries 5 = lookupA exC7a2.entries 5) :=
  ⟨⟨by decide, by decide, by decide, by decide⟩,
   c7_amended exC7a2 exC7b exC7c 5 (by decide) (by decide) (by decide) (by decide)⟩
